import Mathlib

/-!
Verification development for the rollercoaster CLI's manager-discovery and
task-resolution core (TypeScript sources under src/core/manager and
src/core/task).

Modelling conventions for the shallow embedding:

* A directory path is a list of path components, root-first; `pathString`
  renders it as the POSIX string the TypeScript code manipulates
  ("/" followed by the components joined by "/").  Node's `dirname` on such a
  canonical absolute path is `List.dropLast`; `dirname` of the filesystem
  root is the root itself, which corresponds to `List.dropLast [] = []`.
* The filesystem is a record of pure functions: which file names exist in a
  directory (`files`, backing `fileExists`/`existsSync`), and what parsing a
  given configuration file yields (`pkgJson` for `parseJSON` of
  package.json, `taskfile` for `parseYAML` of a taskfile).  A parse failure
  (malformed JSON/YAML, unreadable file) is the `Parsed.malformed` outcome.
* A thrown JS exception inside a `try` block is modelled as `Except.error`
  returned by the corresponding `...E` function (the body of the `try`), and
  the `catch` clause as the wrapper turning an error into `[]`.
* fuse.js is an external library; where a claim depends on it, fuzzy search
  is passed as an abstract ranked-search parameter.
* JS `Array.prototype.sort` (stable, comparator-driven) is modelled by a
  stable insertion sort; `String.prototype.localeCompare` under the default
  collation is modelled for ASCII content as case-insensitive primary
  comparison with a lowercase-before-uppercase tiebreak.
* The memoised taskfile-path lookup of `TaskManager.findTaskfile` is an
  instance-level cache of a pure computation, so it is modelled by the pure
  computation itself.
-/

namespace Rollercoaster

/-- Task value type from src/core/task/task.ts / src/types: a name, an
optional description and an optional directory string. -/
structure Task where
  name : String
  description : Option String
  directory : Option String
deriving DecidableEq

/-- createTask from src/core/task/task.ts. -/
def createTask (name : String) (description : Option String)
    (directory : Option String) : Task :=
  { name := name, description := description, directory := directory }

/-- ManagerTitle value type: display name and owning directory path. -/
structure ManagerTitle where
  name : String
  description : String
deriving DecidableEq

/-- Outcome of parsing a configuration file: either the file could not be
read or parsed (a thrown ParseError in the source), or a parsed value. -/
inductive Parsed (α : Type) where
  | malformed
  | ok (val : α)
deriving DecidableEq

/-- Parsed package.json shape: the optional scripts map, in object key
order.  Fields other than scripts are not read by the core. -/
structure PkgJson where
  scripts : Option (List (String × String))
deriving DecidableEq

/-- One task definition inside a Taskfile: only desc and summary are read. -/
structure TaskDef where
  desc : Option String
  summary : Option String
deriving DecidableEq

/-- Parsed Taskfile shape: optional version string and optional tasks map in
object key order. -/
structure TaskfileV3 where
  version : Option String
  tasks : Option (List (String × TaskDef))
deriving DecidableEq

/-- Pure model of the filesystem the core probes: which file names exist in
each directory, and what parsing each configuration file yields. -/
structure FileSystem where
  files : List String → List String
  pkgJson : List String → Parsed PkgJson
  taskfile : List String → String → Parsed TaskfileV3

/-- fileExists / existsSync from src/core/manager/config-file/config-file.ts:
a boolean existence probe that never throws. -/
def fileExists (fs : FileSystem) (dir : List String) (name : String) : Bool :=
  decide (name ∈ fs.files dir)

/-- Characters of the POSIX rendering of a component-list path: "/" for the
root, otherwise "/" before each component. -/
def pathChars (l : List String) : List Char :=
  match l with
  | [] => ['/']
  | _ :: _ => l.flatMap (fun c => '/' :: c.data)

/-- POSIX string rendering of a component-list path, as the TypeScript code
sees directory paths. -/
def pathString (l : List String) : String :=
  ⟨pathChars l⟩

/-- Model of JS String.prototype.startsWith: code-unit prefix test. -/
def jsStartsWith (s pre : String) : Bool :=
  pre.data.isPrefixOf s.data

/-- Directories visited when walking upward from a directory via dirname
until the filesystem root, the root included; the fuel argument mirrors the
fact that each dirname step removes exactly one component. -/
def upChainGo : Nat → List String → List (List String)
  | _, [] => [[]]
  | 0, l => [l]
  | Nat.succ n, a :: rest => (a :: rest) :: upChainGo n (a :: rest).dropLast

/-- Chain of directories from a directory up to the filesystem root,
inclusive, nearest first — the directories the while loops of findGitRoot
and parseManagers walk through. -/
def upChain (l : List String) : List (List String) :=
  upChainGo l.length l

/-- findGitRoot from src/core/manager/config-file/config-file.ts: walk
upward from startDir, return the first directory containing ".git"; if the
filesystem root is passed without a hit, return startDir itself. -/
def findGitRoot (fs : FileSystem) (startDir : List String) : List String :=
  ((upChain startDir).find? (fun d => fileExists fs d ".git")).getD startDir

/-- Package-manager flavor resolvers (BunWorkspace, PnpmWorkspace,
YarnWorkspace, NpmWorkspace) as a closed variant: each is constructed with a
directory (not recorded here — only the identity matters to the claims) and,
for pnpm/yarn, a version tag. -/
inductive JsWorkspace where
  | bun
  | pnpm (version : String)
  | yarn (version : String)
  | npm
deriving DecidableEq

/-- name() of each flavor resolver: "bun" (bun.ts), version-qualified names
for pnpm (pnpm.ts) and yarn (yarn.ts), "npm" (npm.ts). -/
def JsWorkspace.name : JsWorkspace → String
  | .bun => "bun"
  | .pnpm v => if v = "9+" then "pnpm@9+" else "pnpm@" ++ v
  | .yarn v => "yarn@" ++ v
  | .npm => "npm"

/-- JsManager.detectWorkspace from src/core/manager/js/js-manager.ts:
synchronous lockfile existence checks in fixed order — bun.lockb, then
pnpm-lock.yaml, then yarn.lock, then package-lock.json — falling back to the
defaultManager hint via the trailing switch. -/
def detectWorkspace (fs : FileSystem) (directory : List String)
    (defaultManager : String) : JsWorkspace :=
  if fileExists fs directory "bun.lockb" then .bun
  else if fileExists fs directory "pnpm-lock.yaml" then .pnpm "9+"
  else if fileExists fs directory "yarn.lock" then .yarn "1"
  else if fileExists fs directory "package-lock.json" then .npm
  else if defaultManager = "bun" then .bun
  else if defaultManager = "pnpm" then .pnpm "9+"
  else if defaultManager = "yarn" then .yarn "1"
  else .npm

/-- Manager variants: a JsManager (directory plus the flavor resolver chosen
at construction time) or a TaskManager (directory). -/
inductive Mgr where
  | js (directory : List String) (workspace : JsWorkspace)
  | task (directory : List String)
deriving DecidableEq

/-- Directory a Manager instance is bound to. -/
def Mgr.directory : Mgr → List String
  | .js d _ => d
  | .task d => d

/-- getTitle of both Manager kinds: flavor name or "Task", plus the owning
directory path. -/
def Mgr.getTitle : Mgr → ManagerTitle
  | .js d w => ⟨w.name, pathString d⟩
  | .task d => ⟨"Task", pathString d⟩

/-- Accepted taskfile names probed by TaskManager.findTaskfile
(src/core/manager/task-manager/task-manager.ts), in priority order. -/
def taskfileNames : List String :=
  ["Taskfile.yml", "taskfile.yml", "Taskfile.yaml", "taskfile.yaml",
   "Taskfile.dist.yml", "Taskfile.dist.yaml"]

/-- TaskManager.findTaskfile: first accepted file name existing in the
manager's directory (the instance memo caches this pure result). -/
def findTaskfile (fs : FileSystem) (d : List String) : Option String :=
  taskfileNames.find? (fun n => fileExists fs d n)

/-- Taskfile names probed per directory by parseManagers
(src/core/manager/parser/parser.ts) — note this list stops at the four
non-dist variants. -/
def taskfilePatterns : List String :=
  ["Taskfile.yml", "taskfile.yml", "Taskfile.yaml", "taskfile.yaml"]

/-- ParseManagerConfig from src/types: the optional defaultJSManager hint
handed to parseManagers. -/
structure ParseManagerConfig where
  defaultJSManager : Option String
deriving DecidableEq

/-- Managers appended by one iteration of the parseManagers scan loop at one
directory: a JsManager if package.json exists (constructed with the
defaultJSManager hint, "npm" when absent), then one TaskManager if any of
the four taskfilePatterns exists (first match only). -/
def managersAt (fs : FileSystem) (defaultJSManager : Option String)
    (d : List String) : List Mgr :=
  (if fileExists fs d "package.json" then
    [Mgr.js d (detectWorkspace fs d (defaultJSManager.getD "npm"))]
  else []) ++
  (match taskfilePatterns.find? (fun p => fileExists fs d p) with
   | some _ => [Mgr.task d]
   | none => [])

/-- Directories the parseManagers while loop actually processes: the upward
chain from the starting directory, cut at the first directory whose path
string no longer starts with the git root's path string (the loop condition
`currentDir.startsWith(gitRoot) || currentDir === gitRoot`). -/
def scanLine (fs : FileSystem) (dir : List String) : List (List String) :=
  let gitRoot := findGitRoot fs dir
  (upChain dir).takeWhile
    (fun d => jsStartsWith (pathString d) (pathString gitRoot) ||
      (pathString d == pathString gitRoot))

/-- parseManagers from src/core/manager/parser/parser.ts: walk from dir up
to the git root, appending the managers found at each level. -/
def parseManagers (fs : FileSystem) (dir : List String)
    (config : ParseManagerConfig) : List Mgr :=
  (scanLine fs dir).flatMap (managersAt fs config.defaultJSManager)

/-- Config record persisted by src/core/config/config.ts; schema defaults
are defaultJSManager = "npm", enableDefaultJSManager = false,
autoSelectClosest = true. -/
structure Config where
  defaultJSManager : String
  enableDefaultJSManager : Bool
  autoSelectClosest : Bool
deriving DecidableEq

/-- Manager discovery as invoked by executeCommand in src/cli/root.ts:
parseManagers(cwd, defaultJSManager from Config) — the Config's
enableDefaultJSManager field does not appear in this code path. -/
def rootParseManagers (fs : FileSystem) (cwd : List String)
    (config : Config) : List Mgr :=
  parseManagers fs cwd ⟨some config.defaultJSManager⟩

/-- Truthiness of a JS string-or-undefined value: undefined and the empty
string are falsy. -/
def strTruthy : Option String → Bool
  | some s => !(s == "")
  | none => false

/-- JS expression a-or-b-or-undefined over string-or-undefined values, as in
`taskDef.desc || taskDef.summary || undefined`. -/
def jsOrElse (a b : Option String) : Option String :=
  if strTruthy a then a else if strTruthy b then b else none

/-- Body of the try block of JsManager.listTasks: empty when package.json is
absent, a thrown error (Except.error) when it does not parse, empty when it
declares no scripts, otherwise one Task per script entry with the script
body as description and the manager's directory. -/
def jsListTasksE (fs : FileSystem) (d : List String) :
    Except Unit (List Task) :=
  if !(fileExists fs d "package.json") then .ok []
  else
    match fs.pkgJson d with
    | .malformed => .error ()
    | .ok pj =>
      match pj.scripts with
      | none => .ok []
      | some scripts =>
        .ok (scripts.map (fun s => createTask s.1 (some s.2)
          (some (pathString d))))

/-- Body of the try block of TaskManager.listTasks: empty when no accepted
file exists; a thrown error when the YAML does not parse; empty (with a
logged warning) when the declared version is not exactly "3", the absent
version included; empty when no tasks section is declared; otherwise one
Task per declared task key with desc-or-summary as description and the
manager's directory. -/
def tmListTasksE (fs : FileSystem) (d : List String) :
    Except Unit (List Task) :=
  match findTaskfile fs d with
  | none => .ok []
  | some name =>
    match fs.taskfile d name with
    | .malformed => .error ()
    | .ok tf =>
      if !(tf.version == some "3") then .ok []
      else
        match tf.tasks with
        | none => .ok []
        | some ts =>
          .ok (ts.map (fun s => createTask s.1 (jsOrElse s.2.desc s.2.summary)
            (some (pathString d))))

/-- Try-block body of listTasks for either Manager kind. -/
def Mgr.listTasksE (fs : FileSystem) : Mgr → Except Unit (List Task)
  | .js d _ => jsListTasksE fs d
  | .task d => tmListTasksE fs d

/-- listTasks of either Manager kind, catch clause included: a thrown error
inside the body is caught, logged, and converted to an empty list, so
listTasks never propagates an error to its caller. -/
def Mgr.listTasks (fs : FileSystem) (m : Mgr) : List Task :=
  match m.listTasksE fs with
  | .ok ts => ts
  | .error _ => []

/-- Helper building a FileSystem from the existence map alone, every parse
yielding malformed; used by concrete scenarios that never parse. -/
def fsOfFiles (files : List String → List String) : FileSystem :=
  ⟨files, fun _ => .malformed, fun _ _ => .malformed⟩

/-- Scenario directory for C1: the repo root holds package.json and only the
text bun lockfile. -/
def fsBunText : FileSystem :=
  fsOfFiles (fun d =>
    if d = ["repo"] then [".git", "package.json", "bun.lock"] else [])

/-- Scenario directory holding the binary bun lockfile. -/
def fsBunBinary : FileSystem :=
  fsOfFiles (fun d =>
    if d = ["repo"] then [".git", "package.json", "bun.lockb"] else [])

/-- Scenario directory holding the pnpm, yarn and npm lockfiles together. -/
def fsThreeLocks : FileSystem :=
  fsOfFiles (fun d =>
    if d = ["repo"] then
      [".git", "package.json", "pnpm-lock.yaml", "yarn.lock",
       "package-lock.json"]
    else [])

/-- Scenario directory holding the yarn and npm lockfiles. -/
def fsTwoLocks : FileSystem :=
  fsOfFiles (fun d =>
    if d = ["repo"] then
      [".git", "package.json", "yarn.lock", "package-lock.json"]
    else [])

/-- Scenario directory holding only the npm lockfile. -/
def fsNpmLock : FileSystem :=
  fsOfFiles (fun d =>
    if d = ["repo"] then [".git", "package.json", "package-lock.json"]
    else [])

/-- C1: the pnpm-over-yarn-over-npm priority and the binary bun lockfile
behave as claimed, but a directory whose only bun lockfile is the text
bun.lock does NOT resolve the bun flavor: detectWorkspace probes only
bun.lockb, so the fallback (npm here) wins — contradicting the claim and
the repository's own CHANGELOG entry for 1.4.0, which records bun.lock
text-format support as shipped. -/
theorem c1_lockfile_priority_and_bun_lock_divergence :
    (detectWorkspace fsThreeLocks ["repo"] "npm").name = "pnpm@9+" ∧
    (detectWorkspace fsTwoLocks ["repo"] "npm").name = "yarn@1" ∧
    (detectWorkspace fsNpmLock ["repo"] "npm").name = "npm" ∧
    detectWorkspace fsBunBinary ["repo"] "npm" = JsWorkspace.bun ∧
    "bun.lock" ∈ fsBunText.files ["repo"] ∧
    "bun.lockb" ∉ fsBunText.files ["repo"] ∧
    detectWorkspace fsBunText ["repo"] "npm" = JsWorkspace.npm ∧
    (detectWorkspace fsBunText ["repo"] "npm").name ≠ "bun" := by
  decide

/-- Scenario directory for C2: a package.json with no lockfile at all. -/
def fsNoLock : FileSystem :=
  fsOfFiles (fun d =>
    if d = ["proj"] then [".git", "package.json"] else [])

/-- C2 counterexample: with enableDefaultJSManager = false (its default) and
defaultJSManager = "pnpm", the CLI path still resolves the pnpm flavor for a
lockfile-less directory — the claim says it should resolve plain npm.  The
enableDefaultJSManager flag is stored by the Config but never consulted by
executeCommand or JsManager. -/
theorem c2_counterexample :
    (rootParseManagers fsNoLock ["proj"] ⟨"pnpm", false, true⟩).map
      (fun m => m.getTitle.name) = ["pnpm@9+"] := by
  decide

/-- Fallback switch of detectWorkspace, named for the amended claim C2: the
flavor chosen when no lockfile is present, from the defaultManager hint
alone. -/
def defaultWorkspace (dm : String) : JsWorkspace :=
  if dm = "bun" then .bun
  else if dm = "pnpm" then .pnpm "9+"
  else if dm = "yarn" then .yarn "1"
  else .npm

/-- C2 amended: the discovery path never consults enableDefaultJSManager —
rootParseManagers depends on the Config only through defaultJSManager — and
in a lockfile-less directory detectWorkspace always resolves the flavor the
defaultManager hint names (npm for an unrecognised or default hint). -/
theorem c2_amended_default_always_used (fs : FileSystem)
    (cwd d : List String) (dm : String) (e₁ e₂ a₁ a₂ : Bool)
    (hb : fileExists fs d "bun.lockb" = false)
    (hp : fileExists fs d "pnpm-lock.yaml" = false)
    (hy : fileExists fs d "yarn.lock" = false)
    (hn : fileExists fs d "package-lock.json" = false) :
    rootParseManagers fs cwd ⟨dm, e₁, a₁⟩ =
      rootParseManagers fs cwd ⟨dm, e₂, a₂⟩ ∧
    detectWorkspace fs d dm = defaultWorkspace dm := by
  refine ⟨rfl, ?_⟩
  simp [detectWorkspace, defaultWorkspace, hb, hp, hy, hn]

/-- C2 amended witness: the amended claim evaluated at the concrete
lockfile-less scenario with hint "pnpm". -/
theorem c2_amended_default_always_used_witness :
    rootParseManagers fsNoLock ["x"] ⟨"pnpm", false, true⟩ =
      rootParseManagers fsNoLock ["x"] ⟨"pnpm", true, false⟩ ∧
    detectWorkspace fsNoLock ["proj"] "pnpm" = defaultWorkspace "pnpm" :=
  c2_amended_default_always_used fsNoLock ["x"] ["proj"] "pnpm"
    false true true false (by decide) (by decide) (by decide) (by decide)

/-- Scenario directory for C3: the only task-runner file is the dist
variant, with a well-formed version-3 Taskfile behind it. -/
def fsDistOnly : FileSystem :=
  ⟨fun d => if d = ["repo"] then [".git", "Taskfile.dist.yml"] else [],
   fun _ => .malformed,
   fun d n =>
     if d = ["repo"] ∧ n = "Taskfile.dist.yml" then
       .ok ⟨some "3", some [("build", ⟨some "Build it", none⟩)]⟩
     else .malformed⟩

/-- C3 counterexample: parseManagers probes only the four non-dist taskfile
names, so a directory whose only task-runner file is Taskfile.dist.yml gets
no TaskManager from discovery — even though TaskManager.findTaskfile itself
accepts the dist variants and a TaskManager constructed for the directory
would list its tasks. -/
theorem c3_counterexample :
    parseManagers fsDistOnly ["repo"] ⟨none⟩ = [] ∧
    "Taskfile.dist.yml" ∈ fsDistOnly.files ["repo"] ∧
    findTaskfile fsDistOnly ["repo"] = some "Taskfile.dist.yml" ∧
    Mgr.listTasks fsDistOnly (Mgr.task ["repo"]) ≠ [] := by
  decide

/-- Primary collation key of a string: its characters lowercased, as codes —
the case-insensitive part of the localeCompare model. -/
def primKey (s : String) : List Nat :=
  s.data.map (fun c => c.toLower.toNat)

/-- Tertiary collation key of a string: the per-character case bits, with
lowercase (0) ordering before uppercase (1) as in the default collation. -/
def caseKey (s : String) : List Nat :=
  s.data.map (fun c => if c.isUpper then 1 else 0)

/-- Lexicographic less-or-equal on code lists, a shorter list ordering
before its extensions. -/
def natListLe : List Nat → List Nat → Bool
  | [], _ => true
  | _ :: _, [] => false
  | a :: as, b :: bs =>
    if a < b then true else if a = b then natListLe as bs else false

/-- Model of `a.localeCompare(b) <= 0` under the default collation for ASCII
content: case-insensitive primary comparison, lowercase-before-uppercase
tiebreak. -/
def localeLe (a b : String) : Bool :=
  if primKey a = primKey b then natListLe (caseKey a) (caseKey b)
  else natListLe (primKey a) (primKey b)

/-- Comparator fed to the sort in sortTasks:
`(a, b) => a.name.localeCompare(b.name)` is non-positive. -/
def taskLe (a b : Task) : Bool :=
  localeLe a.name b.name

/-- Stable insertion of a task into an already-sorted list, placing it
before the first element it does not come strictly after. -/
def insertTask (x : Task) : List Task → List Task
  | [] => [x]
  | h :: t => if taskLe x h then x :: h :: t else h :: insertTask x t

/-- sortTasks from src/core/task/task.ts: a stable comparator sort of a copy
of the list by `a.name.localeCompare(b.name)` (Array.prototype.sort is
stable), modelled as stable insertion sort. -/
def sortTasks : List Task → List Task
  | [] => []
  | x :: rest => insertTask x (sortTasks rest)

/-- ManagerTask pairing from src/types: one Task with the Manager that
produced it. -/
structure ManagerTask where
  task : Task
  manager : Mgr
deriving DecidableEq

/-- getAllManagerTasks from src/core/manager/manager.ts: for each Manager in
order, list its tasks, sort them, and append each paired with its Manager.
The try/catch around listTasks is dead weight here because listTasks already
catches internally and never throws. -/
def getAllManagerTasks (fs : FileSystem) : List Mgr → List ManagerTask
  | [] => []
  | m :: rest =>
    (sortTasks (m.listTasks fs)).map (fun t => ⟨t, m⟩) ++
      getAllManagerTasks fs rest

/-- findClosestTask from src/core/manager/manager.ts, the fuse.js ranked
search abstracted as a parameter: list the manager's tasks, search, and
return the best-scoring item paired with the manager, or none when nothing
scores above threshold. -/
def findClosestTask (search : String → List Task → List Task)
    (fs : FileSystem) (m : Mgr) (q : String) : Option ManagerTask :=
  match search q (m.listTasks fs) with
  | [] => none
  | t :: _ => some ⟨t, m⟩

/-- findClosestTaskFromList from src/core/manager/manager.ts: iterate the
managers in the given order and return the first scoped match. -/
def findClosestTaskFromList (search : String → List Task → List Task)
    (fs : FileSystem) : List Mgr → String → Option ManagerTask
  | [], _ => none
  | m :: rest, q =>
    match findClosestTask search fs m q with
    | some mt => some mt
    | none => findClosestTaskFromList search fs rest q

/-- De-duplication key of filterUniqueTasks in src/core/task/task.ts:
JS template string of name, a dash, and directory-or-empty. -/
def taskKey (t : Task) : String :=
  t.name ++ "-" ++ t.directory.getD ""

/-- Loop of filterUniqueTasks with its seen-set threaded explicitly: keep a
task only when its key has not been seen. -/
def filterUniqueGo (seen : List String) : List Task → List Task
  | [] => []
  | t :: ts =>
    if taskKey t ∈ seen then filterUniqueGo seen ts
    else t :: filterUniqueGo (taskKey t :: seen) ts

/-- filterUniqueTasks from src/core/task/task.ts. -/
def filterUniqueTasks (ts : List Task) : List Task :=
  filterUniqueGo [] ts

theorem natListLe_refl (x : List Nat) : natListLe x x = true := by
  induction x with
  | nil => rfl
  | cons a as ih => simp [natListLe, ih]

theorem natListLe_total (x y : List Nat) :
    natListLe x y = true ∨ natListLe y x = true := by
  induction x generalizing y with
  | nil => exact Or.inl rfl
  | cons a as ih =>
    cases y with
    | nil => exact Or.inr rfl
    | cons b bs =>
      rcases Nat.lt_trichotomy a b with h | h | h
      · exact Or.inl (by simp [natListLe, h])
      · subst h
        rcases ih bs with h' | h'
        · exact Or.inl (by simp [natListLe, h'])
        · exact Or.inr (by simp [natListLe, h'])
      · exact Or.inr (by simp [natListLe, h])

theorem natListLe_trans {x y z : List Nat} (hxy : natListLe x y = true)
    (hyz : natListLe y z = true) : natListLe x z = true := by
  induction x generalizing y z with
  | nil => rfl
  | cons a as ih =>
    cases y with
    | nil => simp [natListLe] at hxy
    | cons b bs =>
      cases z with
      | nil => simp [natListLe] at hyz
      | cons c cs =>
        by_cases hab : a < b
        · by_cases hbc : b < c
          · simp [natListLe, Nat.lt_trans hab hbc]
          · simp only [natListLe] at hyz
            rw [if_neg hbc] at hyz
            by_cases hbc' : b = c
            · subst hbc'
              simp [natListLe, hab]
            · rw [if_neg hbc'] at hyz
              exact absurd hyz (by simp)
        · simp only [natListLe] at hxy
          rw [if_neg hab] at hxy
          by_cases hab' : a = b
          · subst hab'
            rw [if_pos rfl] at hxy
            by_cases hac : a < c
            · simp [natListLe, hac]
            · simp only [natListLe] at hyz ⊢
              rw [if_neg hac] at hyz ⊢
              by_cases hac' : a = c
              · rw [if_pos hac'] at hyz ⊢
                subst hac'
                exact ih hxy hyz
              · rw [if_neg hac'] at hyz
                exact absurd hyz (by simp)
          · rw [if_neg hab'] at hxy
            exact absurd hxy (by simp)

theorem natListLe_antisymm {x y : List Nat} (hxy : natListLe x y = true)
    (hyx : natListLe y x = true) : x = y := by
  induction x generalizing y with
  | nil =>
    cases y with
    | nil => rfl
    | cons b bs => simp [natListLe] at hyx
  | cons a as ih =>
    cases y with
    | nil => simp [natListLe] at hxy
    | cons b bs =>
      simp only [natListLe] at hxy hyx
      by_cases hab : a < b
      · rw [if_neg (Nat.lt_asymm hab), if_neg (Nat.ne_of_gt hab)] at hyx
        exact absurd hyx (by simp)
      · rw [if_neg hab] at hxy
        by_cases hab' : a = b
        · subst hab'
          rw [if_pos rfl] at hxy
          rw [if_neg hab, if_pos rfl] at hyx
          rw [ih hxy hyx]
        · rw [if_neg hab'] at hxy
          exact absurd hxy (by simp)

theorem localeLe_total (a b : String) :
    localeLe a b = true ∨ localeLe b a = true := by
  unfold localeLe
  by_cases h : primKey a = primKey b
  · rw [if_pos h, if_pos h.symm]
    exact natListLe_total _ _
  · rw [if_neg h, if_neg (fun h' => h h'.symm)]
    exact natListLe_total _ _

theorem localeLe_trans {a b c : String} (hab : localeLe a b = true)
    (hbc : localeLe b c = true) : localeLe a c = true := by
  unfold localeLe at hab hbc ⊢
  by_cases pab : primKey a = primKey b
  · by_cases pbc : primKey b = primKey c
    · rw [if_pos pab] at hab
      rw [if_pos pbc] at hbc
      rw [if_pos (pab.trans pbc)]
      exact natListLe_trans hab hbc
    · rw [if_neg pbc] at hbc
      rw [if_neg (fun h => pbc (pab.symm.trans h)), pab]
      exact hbc
  · rw [if_neg pab] at hab
    by_cases pbc : primKey b = primKey c
    · rw [if_neg (fun h => pab (h.trans pbc.symm)), ← pbc]
      exact hab
    · rw [if_neg pbc] at hbc
      by_cases pac : primKey a = primKey c
      · exact absurd (natListLe_antisymm hab (by rw [← pac] at hbc; exact hbc))
          pab
      · rw [if_neg pac]
        exact natListLe_trans hab hbc

theorem taskLe_total (a b : Task) : taskLe a b = true ∨ taskLe b a = true :=
  localeLe_total a.name b.name

theorem taskLe_trans {a b c : Task} (hab : taskLe a b = true)
    (hbc : taskLe b c = true) : taskLe a c = true :=
  localeLe_trans hab hbc

theorem mem_insertTask {x y : Task} {l : List Task} :
    y ∈ insertTask x l ↔ y = x ∨ y ∈ l := by
  induction l with
  | nil => simp [insertTask]
  | cons h t ih =>
    simp only [insertTask]
    split
    · simp
    · simp only [List.mem_cons, ih]
      tauto

theorem insertTask_perm (x : Task) (l : List Task) :
    (insertTask x l).Perm (x :: l) := by
  induction l with
  | nil => exact List.Perm.refl _
  | cons h t ih =>
    simp only [insertTask]
    split
    · exact List.Perm.refl _
    · exact (ih.cons h).trans (List.Perm.swap x h t)

theorem sortTasks_perm (l : List Task) : (sortTasks l).Perm l := by
  induction l with
  | nil => exact List.Perm.refl _
  | cons x rest ih =>
    exact (insertTask_perm x (sortTasks rest)).trans (ih.cons x)

theorem insertTask_pairwise {x : Task} {l : List Task}
    (hl : l.Pairwise (fun a b => taskLe a b = true)) :
    (insertTask x l).Pairwise (fun a b => taskLe a b = true) := by
  induction l with
  | nil => simp [insertTask]
  | cons h t ih =>
    rcases List.pairwise_cons.mp hl with ⟨hh, ht⟩
    simp only [insertTask]
    split
    · rename_i hxh
      refine List.pairwise_cons.mpr ⟨?_, hl⟩
      intro b hb
      rcases List.mem_cons.mp hb with rfl | hb
      · exact hxh
      · exact taskLe_trans hxh (hh b hb)
    · rename_i hxh
      have hhx : taskLe h x = true := by
        rcases taskLe_total x h with h' | h'
        · exact absurd h' hxh
        · exact h'
      refine List.pairwise_cons.mpr ⟨?_, ih ht⟩
      intro b hb
      rcases mem_insertTask.mp hb with rfl | hb
      · exact hhx
      · exact hh b hb

theorem sortTasks_pairwise (l : List Task) :
    (sortTasks l).Pairwise (fun a b => taskLe a b = true) := by
  induction l with
  | nil => simp [sortTasks]
  | cons x rest ih => exact insertTask_pairwise ih

theorem getAllManagerTasks_eq_flatMap (fs : FileSystem) (mgrs : List Mgr) :
    getAllManagerTasks fs mgrs =
      mgrs.flatMap
        (fun m => (sortTasks (m.listTasks fs)).map (fun t => ⟨t, m⟩)) := by
  induction mgrs with
  | nil => rfl
  | cons m rest ih => simp [getAllManagerTasks, ih]

theorem getAllManagerTasks_append (fs : FileSystem) (l₁ l₂ : List Mgr) :
    getAllManagerTasks fs (l₁ ++ l₂) =
      getAllManagerTasks fs l₁ ++ getAllManagerTasks fs l₂ := by
  induction l₁ with
  | nil => rfl
  | cons m rest ih => simp [getAllManagerTasks, ih]

/-- C6: getAllManagerTasks is exactly the concatenation, in Manager order,
of each Manager's own task list sorted by the localeCompare comparator and
paired with that Manager: no global re-sort happens across Managers, each
per-Manager block is sorted (and hence sorted case-insensitively, since the
comparator refines the case-insensitive primary order), each block is a
permutation of the Manager's own listing, and every pair's task comes from
its own Manager's listing. -/
theorem c6_get_all_manager_tasks_per_manager_sort (fs : FileSystem)
    (mgrs : List Mgr) :
    getAllManagerTasks fs mgrs =
      mgrs.flatMap
        (fun m => (sortTasks (m.listTasks fs)).map (fun t => ⟨t, m⟩)) ∧
    (∀ m : Mgr,
      (sortTasks (m.listTasks fs)).Pairwise (fun a b => taskLe a b = true)) ∧
    (∀ m : Mgr, (sortTasks (m.listTasks fs)).Perm (m.listTasks fs)) ∧
    (∀ a b : Task, taskLe a b = true →
      natListLe (primKey a.name) (primKey b.name) = true) ∧
    (∀ mt : ManagerTask, mt ∈ getAllManagerTasks fs mgrs →
      mt.manager ∈ mgrs ∧ mt.task ∈ mt.manager.listTasks fs) := by
  refine ⟨getAllManagerTasks_eq_flatMap fs mgrs,
    fun m => sortTasks_pairwise _, fun m => sortTasks_perm _, ?_, ?_⟩
  · intro a b hab
    unfold taskLe localeLe at hab
    by_cases h : primKey a.name = primKey b.name
    · rw [h]
      exact natListLe_refl _
    · rw [if_neg h] at hab
      exact hab
  · intro mt hmt
    rw [getAllManagerTasks_eq_flatMap] at hmt
    rcases List.mem_flatMap.mp hmt with ⟨m, hm, hmem⟩
    rcases List.mem_map.mp hmem with ⟨t, ht, hpair⟩
    subst hpair
    exact ⟨hm, (sortTasks_perm _).mem_iff.mp ht⟩

/-- C6 witness: the pairing clause of the theorem evaluated at the dist-only
scenario's TaskManager and its single listed task. -/
theorem c6_get_all_manager_tasks_per_manager_sort_witness :
    Mgr.task ["repo"] ∈ [Mgr.task ["repo"]] ∧
    Task.mk "build" (some "Build it") (some (pathString ["repo"])) ∈
      Mgr.listTasks fsDistOnly (Mgr.task ["repo"]) :=
  (c6_get_all_manager_tasks_per_manager_sort fsDistOnly
    [Mgr.task ["repo"]]).2.2.2.2
    ⟨Task.mk "build" (some "Build it") (some (pathString ["repo"])),
      Mgr.task ["repo"]⟩ (by decide)

/-- C7: a Manager whose listTasks try-body throws contributes an empty task
list — the catch converts the thrown error to [] instead of propagating it —
and inside getAllManagerTasks such a Manager contributes zero tasks while
every other Manager's contribution is unchanged. -/
theorem c7_list_tasks_failure_isolated (fs : FileSystem) (pre : List Mgr)
    (m : Mgr) (post : List Mgr)
    (herr : Mgr.listTasksE fs m = Except.error ()) :
    Mgr.listTasks fs m = [] ∧
    getAllManagerTasks fs (pre ++ m :: post) =
      getAllManagerTasks fs (pre ++ post) := by
  have h1 : Mgr.listTasks fs m = [] := by
    unfold Mgr.listTasks
    rw [herr]
  refine ⟨h1, ?_⟩
  rw [getAllManagerTasks_append, getAllManagerTasks_append]
  simp [getAllManagerTasks, h1, sortTasks]

/-- Scenario directory for C7: a package.json that exists but does not
parse (malformed JSON). -/
def fsBadJson : FileSystem :=
  fsOfFiles (fun d => if d = ["repo"] then [".git", "package.json"] else [])

/-- C7 witness: the theorem evaluated with a JsManager over malformed JSON
surrounded by a healthy TaskManager. -/
theorem c7_list_tasks_failure_isolated_witness :
    Mgr.listTasks fsBadJson (Mgr.js ["repo"] JsWorkspace.npm) = [] ∧
    getAllManagerTasks fsBadJson
        ([Mgr.task ["repo"]] ++ Mgr.js ["repo"] JsWorkspace.npm :: []) =
      getAllManagerTasks fsBadJson ([Mgr.task ["repo"]] ++ []) :=
  c7_list_tasks_failure_isolated fsBadJson [Mgr.task ["repo"]]
    (Mgr.js ["repo"] JsWorkspace.npm) [] rfl

/-- C8: TaskManager.listTasks returns an empty list when no accepted
taskfile exists; when the parsed taskfile's declared version differs from
the exact string "3" — the absent version field included — it returns empty
through the normal warn-and-return path (the try body yields ok [], not a
thrown error); and it returns empty when no tasks section is declared. -/
theorem c8_taskfile_version_gate (fs : FileSystem) (d : List String) :
    (findTaskfile fs d = none → Mgr.listTasks fs (Mgr.task d) = []) ∧
    (∀ n : String, ∀ tf : TaskfileV3, findTaskfile fs d = some n →
      fs.taskfile d n = Parsed.ok tf → tf.version ≠ some "3" →
      Mgr.listTasks fs (Mgr.task d) = [] ∧
      Mgr.listTasksE fs (Mgr.task d) = Except.ok []) ∧
    (∀ n : String, ∀ tf : TaskfileV3, findTaskfile fs d = some n →
      fs.taskfile d n = Parsed.ok tf → tf.tasks = none →
      Mgr.listTasks fs (Mgr.task d) = []) := by
  refine ⟨?_, ?_, ?_⟩
  · intro hfind
    unfold Mgr.listTasks
    show (match tmListTasksE fs d with
      | .ok ts => ts
      | .error _ => []) = []
    unfold tmListTasksE
    rw [hfind]
  · intro n tf hfind hok hv
    have he : Mgr.listTasksE fs (Mgr.task d) = Except.ok [] := by
      show tmListTasksE fs d = Except.ok []
      unfold tmListTasksE
      rw [hfind]
      have hfalse : (tf.version == some "3") = false :=
        beq_eq_false_iff_ne.mpr hv
      simp [hok, hfalse]
    refine ⟨?_, he⟩
    unfold Mgr.listTasks
    rw [he]
  · intro n tf hfind hok htasks
    unfold Mgr.listTasks
    show (match tmListTasksE fs d with
      | .ok ts => ts
      | .error _ => []) = []
    unfold tmListTasksE
    rw [hfind]
    by_cases hv : (tf.version == some "3") = true
    · simp [hok, hv, htasks]
    · simp [hok, Bool.eq_false_iff.mpr hv]

/-- Scenario directory for C8: a Taskfile.yml declaring version 2. -/
def fsVersion2 : FileSystem :=
  ⟨fun d => if d = ["repo"] then [".git", "Taskfile.yml"] else [],
   fun _ => .malformed,
   fun d n =>
     if d = ["repo"] ∧ n = "Taskfile.yml" then
       .ok ⟨some "2", some [("build", ⟨none, none⟩)]⟩
     else .malformed⟩

/-- C8 witness: the version-gate clause evaluated at the version-2
Taskfile scenario. -/
theorem c8_taskfile_version_gate_witness :
    Mgr.listTasks fsVersion2 (Mgr.task ["repo"]) = [] ∧
    Mgr.listTasksE fsVersion2 (Mgr.task ["repo"]) = Except.ok [] :=
  (c8_taskfile_version_gate fsVersion2 ["repo"]).2.1 "Taskfile.yml"
    ⟨some "2", some [("build", ⟨none, none⟩)]⟩ (by decide) (by decide)
    (by decide)

/-- C5: findClosestTaskFromList walks the managers in Discovery order and
returns the scoped match of the first manager whose search yields anything;
the managers after it — whatever their tasks would score — never influence
the result, and the returned pairing carries the first-yielding manager. -/
theorem c5_closest_from_list_discovery_order
    (search : String → List Task → List Task) (fs : FileSystem)
    (pre : List Mgr) (m : Mgr) (post : List Mgr) (q : String)
    (mt : ManagerTask)
    (hpre : ∀ m' ∈ pre, findClosestTask search fs m' q = none)
    (hm : findClosestTask search fs m q = some mt) :
    findClosestTaskFromList search fs (pre ++ m :: post) q = some mt ∧
    mt.manager = m := by
  constructor
  · induction pre with
    | nil => simp [findClosestTaskFromList, hm]
    | cons p rest ih =>
      have hp : findClosestTask search fs p q = none :=
        hpre p (List.mem_cons_self p rest)
      show (match findClosestTask search fs p q with
        | some mt' => some mt'
        | none => findClosestTaskFromList search fs (rest ++ m :: post) q) =
          some mt
      rw [hp]
      exact ih (fun m' h => hpre m' (List.mem_cons_of_mem p h))
  · unfold findClosestTask at hm
    rcases hs : search q (m.listTasks fs) with - | ⟨t, rest⟩
    · rw [hs] at hm
      exact absurd hm (by simp)
    · rw [hs] at hm
      have : ManagerTask.mk t m = mt := by
        injection hm
      rw [← this]

/-- C5 witness: the theorem evaluated with exact-name search over the
dist-only scenario, a first manager holding the match and a farther
manager behind it. -/
theorem c5_closest_from_list_discovery_order_witness :
    findClosestTaskFromList (fun q ts => ts.filter (fun t => t.name == q))
        fsDistOnly ([] ++ Mgr.task ["repo"] :: [Mgr.task ["elsewhere"]])
        "build" =
      some ⟨Task.mk "build" (some "Build it") (some (pathString ["repo"])),
        Mgr.task ["repo"]⟩ ∧
    (ManagerTask.mk
        (Task.mk "build" (some "Build it") (some (pathString ["repo"])))
        (Mgr.task ["repo"])).manager = Mgr.task ["repo"] :=
  c5_closest_from_list_discovery_order
    (fun q ts => ts.filter (fun t => t.name == q)) fsDistOnly []
    (Mgr.task ["repo"]) [Mgr.task ["elsewhere"]] "build"
    ⟨Task.mk "build" (some "Build it") (some (pathString ["repo"])),
      Mgr.task ["repo"]⟩
    (fun m' h => absurd h (List.not_mem_nil m')) (by decide)

theorem filterUniqueGo_mem_spec (l : List Task) :
    ∀ (seen : List String) (t : Task), t ∈ filterUniqueGo seen l →
      taskKey t ∉ seen ∧
      l.find? (fun u => taskKey u == taskKey t) = some t := by
  induction l with
  | nil =>
    intro seen t ht
    simp [filterUniqueGo] at ht
  | cons u rest ih =>
    intro seen t ht
    simp only [filterUniqueGo] at ht
    by_cases hk : taskKey u ∈ seen
    · rw [if_pos hk] at ht
      obtain ⟨hns, hfind⟩ := ih seen t ht
      have hne : ¬((taskKey u == taskKey t) = true) := by
        intro he
        exact hns (beq_iff_eq.mp he ▸ hk)
      rw [List.find?_cons_of_neg rest hne]
      exact ⟨hns, hfind⟩
    · rw [if_neg hk] at ht
      rcases List.mem_cons.mp ht with rfl | ht'
      · exact ⟨hk, List.find?_cons_of_pos rest (beq_self_eq_true _)⟩
      · obtain ⟨hns, hfind⟩ := ih (taskKey u :: seen) t ht'
        have hneq : taskKey u ≠ taskKey t := by
          intro he
          exact hns (he ▸ List.mem_cons_self _ _)
        have hne : ¬((taskKey u == taskKey t) = true) := by
          simpa using hneq
        rw [List.find?_cons_of_neg rest hne]
        exact ⟨fun hs => hns (List.mem_cons_of_mem _ hs), hfind⟩

theorem filterUniqueGo_pairwise (l : List Task) :
    ∀ seen : List String,
      (filterUniqueGo seen l).Pairwise
        (fun a b => taskKey a ≠ taskKey b) := by
  induction l with
  | nil =>
    intro seen
    simp [filterUniqueGo]
  | cons u rest ih =>
    intro seen
    simp only [filterUniqueGo]
    by_cases hk : taskKey u ∈ seen
    · rw [if_pos hk]
      exact ih seen
    · rw [if_neg hk]
      refine List.pairwise_cons.mpr ⟨?_, ih _⟩
      intro b hb heq
      obtain ⟨hns, -⟩ := filterUniqueGo_mem_spec rest _ b hb
      exact hns (heq ▸ List.mem_cons_self _ _)

/-- C9: filterUniqueTasks collapses two tasks with the same name and the
same (possibly absent) directory to the first of them; two tasks with the
same name but different present directories both survive; and in general the
output has pairwise-distinct de-duplication keys, every survivor being the
first occurrence of its key in the input. -/
theorem c9_filter_unique_tasks (t₁ t₂ : Task) :
    (t₁.name = t₂.name → t₁.directory = t₂.directory →
      filterUniqueTasks [t₁, t₂] = [t₁]) ∧
    (∀ d₁ d₂ : String, t₁.name = t₂.name → t₁.directory = some d₁ →
      t₂.directory = some d₂ → d₁ ≠ d₂ →
      filterUniqueTasks [t₁, t₂] = [t₁, t₂]) ∧
    (∀ l : List Task,
      (filterUniqueTasks l).Pairwise (fun a b => taskKey a ≠ taskKey b) ∧
      ∀ t ∈ filterUniqueTasks l,
        l.find? (fun u => taskKey u == taskKey t) = some t) := by
  refine ⟨?_, ?_, ?_⟩
  · intro hn hd
    have hk : taskKey t₂ = taskKey t₁ := by
      unfold taskKey
      rw [hn, hd]
    simp [filterUniqueTasks, filterUniqueGo, hk]
  · intro d₁ d₂ hn hd1 hd2 hne
    have hk : taskKey t₂ ≠ taskKey t₁ := by
      intro he
      apply hne
      have h2 := congrArg String.data he
      simp only [taskKey, hd1, hd2, Option.getD, hn, String.data_append,
        List.append_assoc] at h2
      exact (String.ext (List.append_cancel_left
        (List.append_cancel_left h2))).symm
    simp [filterUniqueTasks, filterUniqueGo, hk]
  · intro l
    refine ⟨filterUniqueGo_pairwise l [], ?_⟩
    intro t ht
    exact (filterUniqueGo_mem_spec l [] t ht).2

/-- C9 witness: the different-directories clause evaluated at two tasks of
the same name from two directories. -/
theorem c9_filter_unique_tasks_witness :
    filterUniqueTasks
        [Task.mk "build" none (some "/a"), Task.mk "build" none (some "/b")] =
      [Task.mk "build" none (some "/a"), Task.mk "build" none (some "/b")] :=
  (c9_filter_unique_tasks (Task.mk "build" none (some "/a"))
    (Task.mk "build" none (some "/b"))).2.1 "/a" "/b" rfl rfl rfl
    (by decide)

theorem upChainGo_mem_ancestor :
    ∀ (fuel : Nat) (l x : List String), x ∈ upChainGo fuel l → x <+: l := by
  intro fuel
  induction fuel with
  | zero =>
    intro l x hx
    cases l with
    | nil =>
      simp only [upChainGo, List.mem_singleton] at hx
      exact hx ▸ List.prefix_rfl
    | cons a rest =>
      simp only [upChainGo, List.mem_singleton] at hx
      exact hx ▸ List.prefix_rfl
  | succ n ih =>
    intro l x hx
    cases l with
    | nil =>
      simp only [upChainGo, List.mem_singleton] at hx
      exact hx ▸ List.prefix_rfl
    | cons a rest =>
      simp only [upChainGo, List.mem_cons] at hx
      rcases hx with rfl | hx'
      · exact List.prefix_rfl
      · have hdp := List.dropLast_prefix (a :: rest)
        exact (ih _ x hx').trans hdp

theorem upChain_mem_ancestor {l x : List String} (hx : x ∈ upChain l) :
    x <+: l :=
  upChainGo_mem_ancestor l.length l x hx

theorem self_mem_upChain (l : List String) : l ∈ upChain l := by
  cases l with
  | nil => simp [upChain, upChainGo]
  | cons a rest => simp [upChain, upChainGo]

theorem findGitRoot_mem_upChain (fs : FileSystem) (l : List String) :
    findGitRoot fs l ∈ upChain l := by
  unfold findGitRoot
  rcases h : (upChain l).find? (fun d => fileExists fs d ".git") with - | g
  · simpa using self_mem_upChain l
  · simpa using List.mem_of_find?_eq_some h

theorem upChainGo_pairwise_length :
    ∀ (fuel : Nat) (l : List String),
      (upChainGo fuel l).Pairwise (fun a b => b.length < a.length) := by
  intro fuel
  induction fuel with
  | zero =>
    intro l
    cases l <;> simp [upChainGo]
  | succ n ih =>
    intro l
    cases l with
    | nil => simp [upChainGo]
    | cons a rest =>
      simp only [upChainGo]
      refine List.pairwise_cons.mpr ⟨?_, ih _⟩
      intro b hb
      have hanc := upChainGo_mem_ancestor n _ b hb
      have hlen := List.IsPrefix.length_le hanc
      simp only [List.length_dropLast, List.length_cons] at hlen
      simp only [List.length_cons]
      omega

theorem upChain_pairwise_ne (l : List String) :
    (upChain l).Pairwise (fun a b => a ≠ b) := by
  refine (upChainGo_pairwise_length l.length l).imp ?_
  intro a b hlt he
  subst he
  omega

theorem pathChars_length_lt (d extra : List String) (hne : extra ≠ [])
    (hempty : "" ∉ extra) :
    (pathChars d).length < (pathChars (d ++ extra)).length := by
  cases extra with
  | nil => exact absurd rfl hne
  | cons e es =>
    have hepos : 0 < e.data.length := by
      rcases Nat.eq_zero_or_pos e.data.length with h0 | hp
      · exfalso
        apply hempty
        have : e = "" := String.ext (List.length_eq_zero.mp h0)
        exact this ▸ List.mem_cons_self e es
      · exact hp
    cases d with
    | nil =>
      simp only [pathChars, List.nil_append, List.flatMap_cons,
        List.length_cons, List.length_append, List.length_singleton,
        List.length_nil]
      omega
    | cons a rest =>
      have : (a :: rest) ++ (e :: es) = a :: (rest ++ e :: es) := rfl
      simp only [pathChars, this, List.flatMap_cons, List.length_append,
        List.length_cons, List.flatMap_append]
      omega

theorem pathChars_mono (d extra : List String) :
    pathChars d <+: pathChars (d ++ extra) := by
  cases d with
  | nil =>
    cases extra with
    | nil => exact List.prefix_rfl
    | cons e es =>
      exact ⟨e.data ++ es.flatMap (fun c => '/' :: c.data),
        by simp [pathChars]⟩
  | cons a rest =>
    refine ⟨extra.flatMap (fun c => '/' :: c.data), ?_⟩
    have : (a :: rest) ++ extra = a :: (rest ++ extra) := rfl
    simp [pathChars, this, List.flatMap_append]

theorem jsStartsWith_true_iff {s p : String} :
    jsStartsWith s p = true ↔ p.data <+: s.data := by
  unfold jsStartsWith
  exact List.isPrefixOf_iff_prefix

theorem managersAt_mem_shape (fs : FileSystem) (dj : Option String)
    (d : List String) (m : Mgr) (hm : m ∈ managersAt fs dj d) :
    m = Mgr.js d (detectWorkspace fs d (dj.getD "npm")) ∨ m = Mgr.task d := by
  unfold managersAt at hm
  rcases List.mem_append.mp hm with h | h
  · split at h
    · exact Or.inl (List.mem_singleton.mp h)
    · exact absurd h (List.not_mem_nil m)
  · rcases hfind : taskfilePatterns.find? (fun p => fileExists fs d p) with
      - | p
    · rw [hfind] at h
      exact absurd h (List.not_mem_nil m)
    · rw [hfind] at h
      exact Or.inr (List.mem_singleton.mp h)

theorem task_mem_managersAt (fs : FileSystem) (dj : Option String)
    (d d' : List String) :
    Mgr.task d ∈ managersAt fs dj d' ↔
      d' = d ∧ ∃ p ∈ taskfilePatterns, fileExists fs d' p = true := by
  constructor
  · intro hm
    rcases managersAt_mem_shape fs dj d' _ hm with h | h
    · exact absurd h (by simp)
    · have hd : d' = d := by
        injection h with h'
        exact h'.symm
      refine ⟨hd, ?_⟩
      unfold managersAt at hm
      rcases List.mem_append.mp hm with hl | hr
      · exfalso
        split at hl
        · simp at hl
        · exact List.not_mem_nil _ hl
      · rcases hfind : taskfilePatterns.find? (fun p => fileExists fs d' p)
          with - | p
        · rw [hfind] at hr
          exact absurd hr (List.not_mem_nil _)
        · exact ⟨p, List.mem_of_find?_eq_some hfind, List.find?_some hfind⟩
  · rintro ⟨rfl, p, hp, hex⟩
    unfold managersAt
    refine List.mem_append.mpr (Or.inr ?_)
    have hsome : (taskfilePatterns.find?
        (fun q => fileExists fs d' q)).isSome = true :=
      List.find?_isSome.mpr ⟨p, hp, hex⟩
    rcases hfind : taskfilePatterns.find? (fun q => fileExists fs d' q) with
      - | q
    · rw [hfind] at hsome
      simp at hsome
    · simp

theorem countP_task_managersAt_self (fs : FileSystem) (dj : Option String)
    (d : List String) :
    (managersAt fs dj d).countP (fun m => m == Mgr.task d) ≤ 1 := by
  unfold managersAt
  rw [List.countP_append]
  have hjs : (if fileExists fs d "package.json" = true then
      [Mgr.js d (detectWorkspace fs d (dj.getD "npm"))]
    else []).countP (fun m => m == Mgr.task d) = 0 := by
    split
    · simp [List.countP_cons]
    · simp
  have htm : (match taskfilePatterns.find? (fun p => fileExists fs d p) with
    | some _ => [Mgr.task d]
    | none => []).countP (fun m => m == Mgr.task d) ≤ 1 := by
    rcases taskfilePatterns.find? (fun p => fileExists fs d p) with - | p
    · simp
    · simp [List.countP_cons]
  omega

theorem countP_task_managersAt_ne (fs : FileSystem) (dj : Option String)
    {d d' : List String} (h : d' ≠ d) :
    (managersAt fs dj d').countP (fun m => m == Mgr.task d) = 0 := by
  refine List.countP_eq_zero.mpr ?_
  intro m hm hbeq
  have hme : m = Mgr.task d := beq_iff_eq.mp hbeq
  rcases managersAt_mem_shape fs dj d' m hm with hs | hs
  · rw [hme] at hs
    simp at hs
  · rw [hme] at hs
    injection hs with h'
    exact h h'.symm

theorem countP_task_flatMap_zero (fs : FileSystem) (dj : Option String)
    (d : List String) (ds : List (List String)) (h : ∀ d' ∈ ds, d' ≠ d) :
    (ds.flatMap (managersAt fs dj)).countP (fun m => m == Mgr.task d) = 0 := by
  refine List.countP_eq_zero.mpr ?_
  intro m hm hbeq
  have hme : m = Mgr.task d := beq_iff_eq.mp hbeq
  rcases List.mem_flatMap.mp hm with ⟨d', hd', hmm⟩
  rcases managersAt_mem_shape fs dj d' m hmm with hs | hs
  · rw [hme] at hs
    simp at hs
  · rw [hme] at hs
    injection hs with h'
    exact h d' hd' h'.symm

theorem countP_task_flatMap_le (fs : FileSystem) (dj : Option String)
    (d : List String) :
    ∀ ds : List (List String), ds.Pairwise (fun a b => a ≠ b) →
      (ds.flatMap (managersAt fs dj)).countP
        (fun m => m == Mgr.task d) ≤ 1 := by
  intro ds
  induction ds with
  | nil =>
    intro _
    simp
  | cons d' rest ih =>
    intro hpw
    rcases List.pairwise_cons.mp hpw with ⟨hhead, htail⟩
    rw [List.flatMap_cons, List.countP_append]
    by_cases hd' : d' = d
    · subst hd'
      have hz : (rest.flatMap (managersAt fs dj)).countP
          (fun m => m == Mgr.task d') = 0 :=
        countP_task_flatMap_zero fs dj d' rest
          (fun x hx he => hhead x hx he.symm)
      have hs := countP_task_managersAt_self fs dj d'
      omega
    · have hz := countP_task_managersAt_ne fs dj hd'
      have hs := ih htail
      omega

/-- C3 amended: parseManagers never appends more than one TaskManager for
the same directory; a TaskManager appears for a directory only when one of
the four non-dist taskfile names exists there; and for every scanned
directory holding one of those four names a TaskManager does appear.  The
dist variants Taskfile.dist.yml / Taskfile.dist.yaml, accepted by
TaskManager.findTaskfile, are not probed by discovery. -/
theorem c3_amended_discovery_patterns (fs : FileSystem)
    (start : List String) (cfg : ParseManagerConfig) (d : List String) :
    (parseManagers fs start cfg).countP (fun m => m == Mgr.task d) ≤ 1 ∧
    (Mgr.task d ∈ parseManagers fs start cfg →
      ∃ p ∈ taskfilePatterns, fileExists fs d p = true) ∧
    (d ∈ scanLine fs start →
      (∃ p ∈ taskfilePatterns, fileExists fs d p = true) →
      Mgr.task d ∈ parseManagers fs start cfg) := by
  refine ⟨?_, ?_, ?_⟩
  · unfold parseManagers
    refine countP_task_flatMap_le fs cfg.defaultJSManager d _ ?_
    exact List.Pairwise.sublist (List.takeWhile_sublist _)
      (upChain_pairwise_ne start)
  · intro hm
    unfold parseManagers at hm
    rcases List.mem_flatMap.mp hm with ⟨d', hd', hmm⟩
    rcases (task_mem_managersAt fs cfg.defaultJSManager d d').mp hmm with
      ⟨rfl, hex⟩
    exact hex
  · intro hd hex
    unfold parseManagers
    refine List.mem_flatMap.mpr ⟨d, hd, ?_⟩
    exact (task_mem_managersAt fs cfg.defaultJSManager d d).mpr ⟨rfl, hex⟩

/-- Scenario directory for the C3 amended witness: a canonical
Taskfile.yml. -/
def fsTfYml : FileSystem :=
  fsOfFiles (fun d => if d = ["repo"] then [".git", "Taskfile.yml"] else [])

/-- C3 amended witness: the positive clause evaluated at a directory holding
Taskfile.yml. -/
theorem c3_amended_discovery_patterns_witness :
    Mgr.task ["repo"] ∈ parseManagers fsTfYml ["repo"] ⟨none⟩ :=
  (c3_amended_discovery_patterns fsTfYml ["repo"] ⟨none⟩ ["repo"]).2.2
    (by decide) ⟨"Taskfile.yml", by decide, by decide⟩

/-- C4: every Manager returned by parseManagers is bound to a directory on
the chain between the starting directory and the git root, inclusive: its
directory is an ancestor-or-self of the starting directory, and the git
root is an ancestor-or-self of it — so a manifest in a strict ancestor of
the git root is never discovered.  The side condition rules out empty path
components, which no canonical absolute path has. -/
theorem c4_discovery_within_bounds (fs : FileSystem) (start : List String)
    (cfg : ParseManagerConfig) (m : Mgr) (hcomp : "" ∉ start)
    (hm : m ∈ parseManagers fs start cfg) :
    m.directory <+: start ∧ findGitRoot fs start <+: m.directory := by
  unfold parseManagers at hm
  rcases List.mem_flatMap.mp hm with ⟨d, hd, hmm⟩
  have hdir : m.directory = d := by
    rcases managersAt_mem_shape fs cfg.defaultJSManager d m hmm with h | h <;>
      rw [h] <;> rfl
  simp only [scanLine] at hd
  have hdu : d ∈ upChain start :=
    (List.takeWhile_sublist _).mem hd
  have hanc : d <+: start := upChain_mem_ancestor hdu
  have hcond := List.mem_takeWhile_imp hd
  have hg : findGitRoot fs start ∈ upChain start :=
    findGitRoot_mem_upChain fs start
  have hganc : findGitRoot fs start <+: start := upChain_mem_ancestor hg
  have hchar : (pathString (findGitRoot fs start)).data <+:
      (pathString d).data := by
    rw [Bool.or_eq_true] at hcond
    rcases hcond with h | h
    · exact jsStartsWith_true_iff.mp h
    · rw [beq_iff_eq.mp h]
  rw [hdir]
  refine ⟨hanc, ?_⟩
  rcases List.prefix_or_prefix_of_prefix hganc hanc with hgd | hdg
  · exact hgd
  · by_cases heq : d = findGitRoot fs start
    · rw [heq]
    · exfalso
      obtain ⟨extra, hex⟩ := hdg
      have hexne : extra ≠ [] := by
        intro h
        apply heq
        rw [← hex, h, List.append_nil]
      have hemp : "" ∉ extra := by
        intro hmem
        apply hcomp
        have h1 : "" ∈ findGitRoot fs start := by
          rw [← hex]
          exact List.mem_append.mpr (Or.inr hmem)
        exact hganc.sublist.mem h1
      have hstrict : (pathChars d).length <
          (pathChars (findGitRoot fs start)).length := by
        rw [← hex]
        exact pathChars_length_lt d extra hexne hemp
      have hle : (pathChars (findGitRoot fs start)).length ≤
          (pathChars d).length :=
        List.IsPrefix.length_le hchar
      omega

/-- C4 witness: the bounds evaluated at the lockfile-less scenario's single
JsManager. -/
theorem c4_discovery_within_bounds_witness :
    (Mgr.js ["proj"] (JsWorkspace.pnpm "9+")).directory <+: ["proj"] ∧
    findGitRoot fsNoLock ["proj"] <+:
      (Mgr.js ["proj"] (JsWorkspace.pnpm "9+")).directory :=
  c4_discovery_within_bounds fsNoLock ["proj"] ⟨some "pnpm"⟩
    (Mgr.js ["proj"] (JsWorkspace.pnpm "9+")) (by decide) (by decide)

/-- C10: whenever a scanned directory holds both a package.json and one of
the four discovery taskfile names, the returned list contains the
JsManager for that directory immediately followed by the TaskManager for
the same directory — the JS manager precedes the Task manager within one
directory level. -/
theorem c10_js_precedes_task_same_directory (fs : FileSystem)
    (start : List String) (cfg : ParseManagerConfig) (d : List String)
    (hd : d ∈ scanLine fs start)
    (hpkg : fileExists fs d "package.json" = true)
    (htf : ∃ p ∈ taskfilePatterns, fileExists fs d p = true) :
    [Mgr.js d (detectWorkspace fs d (cfg.defaultJSManager.getD "npm")),
      Mgr.task d] <:+: parseManagers fs start cfg := by
  obtain ⟨s, t, hst⟩ := List.append_of_mem hd
  unfold parseManagers
  rw [hst, List.flatMap_append, List.flatMap_cons]
  have hat : managersAt fs cfg.defaultJSManager d =
      [Mgr.js d (detectWorkspace fs d (cfg.defaultJSManager.getD "npm")),
        Mgr.task d] := by
    unfold managersAt
    rw [if_pos hpkg]
    have hsome : (taskfilePatterns.find?
        (fun p => fileExists fs d p)).isSome = true :=
      List.find?_isSome.mpr htf
    rcases hfind : taskfilePatterns.find? (fun p => fileExists fs d p) with
      - | p
    · rw [hfind] at hsome
      simp at hsome
    · rfl
  rw [hat, ← List.append_assoc]
  exact List.infix_append _ _ _

/-- Scenario directory for the C10 witness: package.json and Taskfile.yml
side by side. -/
def fsBoth : FileSystem :=
  fsOfFiles (fun d =>
    if d = ["repo"] then [".git", "package.json", "Taskfile.yml"] else [])

/-- C10 witness: the adjacency evaluated at the side-by-side scenario. -/
theorem c10_js_precedes_task_same_directory_witness :
    [Mgr.js ["repo"] (detectWorkspace fsBoth ["repo"] "npm"),
      Mgr.task ["repo"]] <:+: parseManagers fsBoth ["repo"] ⟨none⟩ :=
  c10_js_precedes_task_same_directory fsBoth ["repo"] ⟨none⟩ ["repo"]
    (by decide) (by decide) ⟨"Taskfile.yml", by decide, by decide⟩

end Rollercoaster
